import Mathlib

/-!
Verification of the maas-cpu-analyzer tool (maas_cpu_analyzer/maas_cpu_analyzer.py)
against its design specification.

The Python code is shallowly embedded: Python strings are modelled as
`List Char` with ASCII casing semantics (the tool only manipulates CPU model
strings, URLs and identifiers, and every character class used by the code,
such as A-Z, 0-9, underscore and whitespace, is ASCII); Python `None` is
`Option.none`; dictionaries from the MAAS inventory become a `Machine`
structure; HTTP interaction in the retry loop becomes an environment
function giving each attempt its response statuses and the generation
counter observed by the fresh GET of that attempt.
-/

namespace MaasCpuAnalyzer

/-- ASCII uppercase of one character, modelling Python `str.upper` on ASCII
text: codes 97-122 (a-z) map down by 32 to 65-90 (A-Z); everything else is
unchanged. -/
def asciiUpperChar (c : Char) : Char :=
  if 97 ≤ c.toNat ∧ c.toNat ≤ 122 then Char.ofNat (c.toNat - 32) else c

/-- Membership in the character class `[A-Z0-9]` of the compiled pattern
`_SPECIAL_CHARS_PATTERN = [^A-Z0-9]` (codes 65-90 and 48-57). -/
def isUpperAlnum (c : Char) : Bool :=
  decide (65 ≤ c.toNat ∧ c.toNat ≤ 90) || decide (48 ≤ c.toNat ∧ c.toNat ≤ 57)

/-- The regex class `\s` on ASCII text: space, tab, newline, vertical tab,
form feed, carriage return (codes 32, 9, 10, 11, 12, 13). -/
def isPySpace (c : Char) : Bool :=
  decide (c.toNat = 32 ∨ c.toNat = 9 ∨ c.toNat = 10 ∨ c.toNat = 11 ∨
    c.toNat = 12 ∨ c.toNat = 13)

/-- A character allowed in a generated trait name: `[A-Z0-9_]`. -/
def isTraitChar (c : Char) : Bool :=
  isUpperAlnum c || decide (c = '_')

/-- One alternative of `_CPU_PROCESSOR_PATTERN = \s+(CPU|PROCESSOR)$` applied
by `re.sub(..., "")`: if the string ends in the token `tok` immediately
preceded by at least one whitespace character, the match (the token and the
whole run of whitespace before it, since the leftmost match start is the
beginning of that run and `\s+` is greedy) is removed; otherwise `none`. -/
def stripTokenSuffix (tok l : List Char) : Option (List Char) :=
  let r := l.reverse
  if tok.reverse.isPrefixOf r then
    match r.drop tok.length with
    | [] => none
    | c :: rest =>
        if isPySpace c then some (((c :: rest).dropWhile isPySpace).reverse)
        else none
  else none

/-- `_CPU_PROCESSOR_PATTERN.sub("", cpu_upper)`: try the `CPU` alternative,
then `PROCESSOR` (the two cannot both match, their last letters differ),
and return the input unchanged when neither matches. -/
def stripCpuSuffix (l : List Char) : List Char :=
  match stripTokenSuffix (("CPU").toList) l with
  | some res => res
  | none =>
      match stripTokenSuffix (("PROCESSOR").toList) l with
      | some res => res
      | none => l

/-- `_SPECIAL_CHARS_PATTERN.sub("_", ...)`: every character outside
`[A-Z0-9]` becomes an underscore. -/
def replaceSpecial (l : List Char) : List Char :=
  l.map (fun c => if isUpperAlnum c then c else '_')

/-- `_MULTIPLE_UNDERSCORES_PATTERN.sub("_", ...)`: a run of underscores is
collapsed to a single underscore by dropping each underscore that is
immediately followed by another one. -/
def collapseUnderscores : List Char → List Char
  | [] => []
  | [c] => [c]
  | a :: b :: rest =>
      if a == '_' && b == '_' then collapseUnderscores (b :: rest)
      else a :: collapseUnderscores (b :: rest)

/-- Python `str.strip("_")`: remove every leading and every trailing
underscore. -/
def stripUnderscores (l : List Char) : List Char :=
  ((l.dropWhile (fun c => c == '_')).reverse.dropWhile (fun c => c == '_')).reverse

/-- Python substring containment `pat in l`. -/
def hasSubstring (pat : List Char) : List Char → Bool
  | [] => pat.isPrefixOf []
  | c :: rest => pat.isPrefixOf (c :: rest) || hasSubstring pat rest

/-- `MAASCPUAnalyzer.generate_trait_name`: empty or absent input maps to the
literal `CUSTOM_UNKNOWN_EMPTY`; otherwise uppercase, remove a trailing
CPU/PROCESSOR token, replace special characters by underscores, collapse
underscore runs, strip outer underscores, and prefix `CUSTOM_` when the
cleaned string contains `INTEL` or `AMD` and `CUSTOM_UNKNOWN_` otherwise. -/
def generate_trait_name (cpu_model : List Char) : List Char :=
  if cpu_model = [] then ("CUSTOM_UNKNOWN_EMPTY").toList
  else
    let cpu_clean :=
      stripUnderscores (collapseUnderscores (replaceSpecial
        (stripCpuSuffix (cpu_model.map asciiUpperChar))))
    if hasSubstring (("INTEL").toList) cpu_clean then ("CUSTOM_").toList ++ cpu_clean
    else if hasSubstring (("AMD").toList) cpu_clean then ("CUSTOM_").toList ++ cpu_clean
    else ("CUSTOM_UNKNOWN_").toList ++ cpu_clean

/-- Modelled from the spec (section 4.1): the string "ends with a trailing
CPU or PROCESSOR token", i.e. the token appears at the end, separated from
the rest by whitespace. -/
def specEndsWithToken (tok l : List Char) : Bool :=
  tok.reverse.isPrefixOf l.reverse &&
    (match l.reverse.drop tok.length with
     | [] => false
     | c :: _ => isPySpace c)

/-- Modelled from the spec (section 4.1): strip one trailing `CPU` or
`PROCESSOR` token together with the whitespace separating it from the rest
of the string. -/
def specStripToken (l : List Char) : List Char :=
  if specEndsWithToken (("CPU").toList) l then
    ((l.reverse.drop 3).dropWhile isPySpace).reverse
  else if specEndsWithToken (("PROCESSOR").toList) l then
    ((l.reverse.drop 9).dropWhile isPySpace).reverse
  else l

/-- Modelled from the spec (section 4.1): collapse runs of underscores,
formulated as a left-to-right scan that drops an underscore whenever the
previous kept character was an underscore. -/
def specCollapseAux : Option Char → List Char → List Char
  | _, [] => []
  | prev, c :: rest =>
      if c == '_' && prev == some '_' then specCollapseAux prev rest
      else c :: specCollapseAux (some c) rest

/-- Modelled from the spec (section 4.1): collapse repeated underscores. -/
def specCollapse (l : List Char) : List Char := specCollapseAux none l

/-- Modelled from the spec (sections 4.1 and 8): the trait-name derivation
pipeline, written as the composition of the individually specified steps:
uppercase, strip a trailing CPU/PROCESSOR token, replace characters outside
A-Z0-9 by underscores, collapse repeated underscores, trim outer
underscores, then add the vendor prefix; the empty input maps to the
literal `CUSTOM_UNKNOWN_EMPTY`. -/
def spec_derive (l : List Char) : List Char :=
  if l = [] then ("CUSTOM_UNKNOWN_EMPTY").toList
  else
    let cleaned :=
      stripUnderscores (specCollapse (replaceSpecial
        (specStripToken (l.map asciiUpperChar))))
    if hasSubstring (("INTEL").toList) cleaned || hasSubstring (("AMD").toList) cleaned
    then ("CUSTOM_").toList ++ cleaned
    else ("CUSTOM_UNKNOWN_").toList ++ cleaned

/-- Adjacent-underscore freedom of a character list (used to state the
well-formedness of generated trait names). -/
def noDouble : List Char → Bool
  | [] => true
  | [_] => true
  | a :: b :: rest => !(a == '_' && b == '_') && noDouble (b :: rest)

/-- Case-insensitive ASCII match of the lowercase pattern `ps` against the
beginning of `l`, modelling the regex `(?i)` flag of
`_INTEL_AMD_PATTERN = (?i)(intel|amd)` on ASCII text. -/
def ciHeadMatch : List Char → List Char → Bool
  | [], _ => true
  | _ :: _, [] => false
  | p :: ps, c :: cs => (asciiUpperChar c == asciiUpperChar p) && ciHeadMatch ps cs

/-- `_INTEL_AMD_PATTERN.search`: leftmost match of `(?i)(intel|amd)`,
returning the matched text (group 1) in its original casing. At each start
position the alternative `intel` is tried before `amd`. -/
def searchIntelAmd : List Char → Option (List Char)
  | [] => none
  | c :: cs =>
      if ciHeadMatch (("intel").toList) (c :: cs) then some ((c :: cs).take 5)
      else if ciHeadMatch (("amd").toList) (c :: cs) then some ((c :: cs).take 3)
      else searchIntelAmd cs

/-- Python `str.upper` on an ASCII string. -/
def pyUpper (l : List Char) : List Char := l.map asciiUpperChar

/-- `MAASCPUAnalyzer.get_cpu_vendor`, including its control-flow quirk: for
a falsy (empty) model the literal `UNKNOWN` is returned; when the
intel/amd pattern matches, the match is returned uppercased; when it does
not match, the function falls through and implicitly returns Python `None`
(the trailing `return "UNKNOWN"` sits after a `return` and is dead). -/
def get_cpu_vendor (cpu_model : List Char) : Option (List Char) :=
  if cpu_model.isEmpty then some (("UNKNOWN").toList)
  else
    match searchIntelAmd cpu_model with
    | some m => some (pyUpper m)
    | none => none

/-- A machine tag list as found in MAAS inventory records: either a list of
bare strings or a list of `{name: str}` records (whose `name` key may be
absent, modelled by `Option`). -/
inductive TagList where
  | strs : List String → TagList
  | recs : List (Option String) → TagList
deriving DecidableEq

/-- A machine record, keeping the fields `filter_machines` and the
reporting code read: `zone` models `machine.get("zone", {}).get("name")`
and `status_name` models `machine.get("status_name")` (absent keys are
`none`). -/
structure Machine where
  hostname : String
  zone : Option String
  status_name : Option String
  tag_names : TagList
  cpu_model : String
deriving DecidableEq

/-- The tag-name normalization inside `filter_machines`: when the first
element of a machine tag list is a record, every element is replaced by its
`name` value (defaulting to the empty string); bare strings are used as
they are. -/
def tagNames : TagList → List String
  | TagList.strs l => l
  | TagList.recs l => l.map (fun o => o.getD (""))

/-- Python truthiness of an optional string argument (`None` and the empty
string are falsy). -/
def strTruthy : Option String → Bool
  | none => false
  | some s => !s.isEmpty

/-- The nested predicate `should_include_machine` of `filter_machines`,
with its three early-return checks in source order. -/
def should_include_machine (zone : Option String) (deployed_only : Bool)
    (tags : List String) (m : Machine) : Bool :=
  if strTruthy zone && !(m.zone == zone) then false
  else if deployed_only && !(m.status_name == some ("Deployed")) then false
  else if !tags.isEmpty &&
      !(tags.any (fun t => (tagNames m.tag_names).contains t)) then false
  else true

/-- `MAASCPUAnalyzer.filter_machines`: early return for the empty list,
otherwise the list comprehension keeping the machines that pass
`should_include_machine`. -/
def filter_machines (machines : List Machine) (zone : Option String)
    (deployed_only : Bool) (tags : List String) : List Machine :=
  if machines.isEmpty then []
  else machines.filter (should_include_machine zone deployed_only tags)

/-- Modelled from the spec (section 4.2): a machine passes when all
supplied predicates hold; an absent filter (no zone or the empty zone, an
unset flag, an empty tag set) is a pass-through, and tag matching asks for
a non-empty intersection. -/
def spec_should_include (zone : Option String) (deployed_only : Bool)
    (tags : List String) (m : Machine) : Bool :=
  (match zone with
   | none => true
   | some z => if z.isEmpty then true else m.zone == some z)
  && (!deployed_only || m.status_name == some ("Deployed"))
  && (tags.isEmpty || tags.any (fun t => (tagNames m.tag_names).contains t))

/-- The observable outcome of the configuration phase of
`fetch_maas_data`: either the process exits with an error message before
any HTTP request is issued, or the inventory GET is issued to the given
URL with the three parsed credential parts. -/
inductive FetchOutcome where
  | exitError : List Char → FetchOutcome
  | request : List Char → List Char → List Char → List Char → FetchOutcome
deriving DecidableEq

/-- Python truthiness of an optional string env value. -/
def listTruthy : Option (List Char) → Bool
  | none => false
  | some l => !l.isEmpty

/-- Python `str.split(":")`: split at every colon; the empty string yields
one empty part. -/
def splitOnColon : List Char → List (List Char)
  | [] => [[]]
  | c :: rest =>
      match splitOnColon rest with
      | [] => [[]]
      | h :: t => if c == ':' then [] :: h :: t else (c :: h) :: t

/-- Python `str.rstrip("/")`. -/
def rstripSlash (l : List Char) : List Char :=
  (l.reverse.dropWhile (fun c => c == '/')).reverse

/-- The message printed when MAAS_URL or MAAS_API_KEY is unset. -/
def MAAS_MISSING_ENV_MSG : List Char :=
  ("Error: MAAS_URL and MAAS_API_KEY environment variables must be set").toList

/-- The message printed when MAAS_API_KEY does not have three colon
separated parts (the source quotes the format inside the message). -/
def MAAS_BAD_KEY_MSG : List Char :=
  ("Error: MAAS_API_KEY must be in format consumer_key:token_key:token_secret").toList

/-- The configuration-validation phase of `fetch_maas_data`, from reading
the two environment variables up to the decision of which HTTP request to
issue: unset or empty variables exit with an error, an API key without
exactly three colon-separated parts exits with an error, and otherwise the
GET to `{MAAS_URL rstripped of /}/api/2.0/machines/` is issued with the
three credential parts. -/
def fetch_maas_data_config (maas_url maas_api_key : Option (List Char)) :
    FetchOutcome :=
  if !listTruthy maas_url || !listTruthy maas_api_key then
    FetchOutcome.exitError MAAS_MISSING_ENV_MSG
  else
    match splitOnColon (maas_api_key.getD []) with
    | [consumer_key, token_key, token_secret] =>
        FetchOutcome.request
          (rstripSlash (maas_url.getD []) ++ ("/api/2.0/machines/").toList)
          consumer_key token_key token_secret
    | _ => FetchOutcome.exitError MAAS_BAD_KEY_MSG

/-- The placement service as seen by one attempt of
`_set_resource_provider_traits`: the status of the GET on the resource
provider, the generation counter carried by its body, and the status of
the following PUT of the traits. -/
structure AttemptEnv where
  getStatus : Nat
  generation : Nat
  putStatus : Nat

/-- Observable placement-API events of the retry loop: a successful read
of the generation counter, and a trait write carrying the generation it
sent together with the response status it received. -/
inductive PlacementEv where
  | readGen : Nat → PlacementEv
  | writeTraits : Nat → Nat → PlacementEv
deriving DecidableEq

/-- `SUCCESS_HTTP_CODES = [200, 201, 204]`. -/
def SUCCESS_HTTP_CODES : List Nat := [200, 201, 204]

/-- `MAX_RETRIES = 3`. -/
def MAX_RETRIES : Nat := 3

/-- The body of the `for attempt in range(MAX_RETRIES)` loop of
`_set_resource_provider_traits`: each iteration issues a fresh GET; a
failed GET returns False at once; otherwise the generation is read and the
PUT is issued with it; a 2xx PUT returns True, a 409 PUT continues to the
next attempt only while `attempt < MAX_RETRIES - 1`, and any other status
returns False. The returned trace records the reads and writes. -/
def setTraitsAttempts (env : Nat → AttemptEnv) :
    List Nat → Bool × List PlacementEv
  | [] => (false, [])
  | attempt :: rest =>
      let e := env attempt
      if SUCCESS_HTTP_CODES.contains e.getStatus then
        if SUCCESS_HTTP_CODES.contains e.putStatus then
          (true, [PlacementEv.readGen e.generation,
                  PlacementEv.writeTraits e.generation e.putStatus])
        else if e.putStatus == 409 && decide (attempt < MAX_RETRIES - 1) then
          let r := setTraitsAttempts env rest
          (r.1, PlacementEv.readGen e.generation ::
                PlacementEv.writeTraits e.generation e.putStatus :: r.2)
        else
          (false, [PlacementEv.readGen e.generation,
                   PlacementEv.writeTraits e.generation e.putStatus])
      else (false, [])

/-- `MAASCPUAnalyzer._set_resource_provider_traits`: run the attempts loop
over `range(MAX_RETRIES)`; falling out of the loop returns False. -/
def set_resource_provider_traits (env : Nat → AttemptEnv) :
    Bool × List PlacementEv :=
  setTraitsAttempts env (List.range MAX_RETRIES)

/-- Recognize a write event. -/
def isWriteEv : PlacementEv → Bool
  | PlacementEv.writeTraits _ _ => true
  | PlacementEv.readGen _ => false

/-- Number of PUT (write) attempts recorded in a trace. -/
def countWrites (tr : List PlacementEv) : Nat := tr.countP isWriteEv

/-- Every write in the trace is immediately preceded by a fresh read, and
the generation the write sends is exactly the one that read returned. -/
def writesFresh : List PlacementEv → Bool
  | [] => true
  | PlacementEv.writeTraits _ _ :: _ => false
  | [PlacementEv.readGen _] => true
  | PlacementEv.readGen g :: PlacementEv.writeTraits g2 _ :: rest =>
      (g == g2) && writesFresh rest
  | PlacementEv.readGen _ :: PlacementEv.readGen g :: rest =>
      writesFresh (PlacementEv.readGen g :: rest)

/-- A sample deployed machine in zone-1 (used to instantiate universally
quantified theorems at concrete inputs). -/
def sampleMachineA : Machine :=
  { hostname := ("node-1"), zone := some ("zone-1"),
    status_name := some ("Deployed"), tag_names := TagList.strs [("compute")],
    cpu_model := ("Intel Xeon") }

/-- A sample non-deployed machine in zone-2 with record-shaped tags. -/
def sampleMachineB : Machine :=
  { hostname := ("node-2"), zone := some ("zone-2"),
    status_name := some ("Ready"), tag_names := TagList.recs [some ("gpu")],
    cpu_model := ("AMD EPYC") }

/-- C3: `generate_trait_name` maps the three reference inputs of the spec
to exactly the documented trait names. -/
theorem generate_trait_name_examples :
    generate_trait_name (("Intel(R) Xeon(R) CPU E5-2680 v4 @ 2.40GHz").toList) =
        ("CUSTOM_INTEL_R_XEON_R_CPU_E5_2680_V4_2_40GHZ").toList ∧
      generate_trait_name (("AMD EPYC 7551P 32-Core Processor").toList) =
        ("CUSTOM_AMD_EPYC_7551P_32_CORE").toList ∧
      generate_trait_name ([]) = ("CUSTOM_UNKNOWN_EMPTY").toList := by
  refine ⟨by decide, by decide, by decide⟩

/-- C7: with no active predicate (no zone, deployed-only off, no tags),
`filter_machines` is the identity, and likewise for the empty zone string,
preserving order. -/
theorem filter_machines_no_predicates_identity (machines : List Machine) :
    filter_machines machines none false [] = machines ∧
      filter_machines machines (some ("")) false [] = machines := by
  constructor <;>
  · unfold filter_machines
    rcases machines with _ | ⟨m, ms⟩
    · rfl
    · rw [if_neg (by simp)]
      rw [List.filter_eq_self.mpr]
      intro a _
      rfl

/-- C10: whatever the filter arguments, the output of `filter_machines` is
a sublist of the input: each returned record is an input record,
unmodified, kept at most once and in input order. -/
theorem filter_machines_sublist (machines : List Machine)
    (zone : Option String) (deployed_only : Bool) (tags : List String) :
    (filter_machines machines zone deployed_only tags).Sublist machines := by
  unfold filter_machines
  split
  · exact List.nil_sublist machines
  · exact List.filter_sublist machines

/-- Over any attempts list and any environment, the loop performs at most
one write per listed attempt and every write is immediately preceded by a
fresh read whose generation it sends. -/
theorem setTraitsAttempts_bound (env : Nat → AttemptEnv) (l : List Nat) :
    countWrites (setTraitsAttempts env l).2 ≤ l.length ∧
      writesFresh (setTraitsAttempts env l).2 = true := by
  induction l with
  | nil => exact ⟨Nat.le_refl 0, rfl⟩
  | cons attempt rest ih =>
      unfold setTraitsAttempts
      dsimp only
      split
      · split
        · simp [countWrites, List.countP_cons, isWriteEv, writesFresh]
        · split
          · refine ⟨?_, ?_⟩
            · simpa [countWrites, List.countP_cons, isWriteEv] using
                Nat.succ_le_succ ih.1
            · simpa [writesFresh] using ih.2
          · simp [countWrites, List.countP_cons, isWriteEv, writesFresh]
      · simp [countWrites, writesFresh]

/-- C1: `_set_resource_provider_traits` makes at most `MAX_RETRIES = 3`
write attempts, each immediately preceded by a fresh read of the generation
counter whose value the write sends; with conflict (409) responses on
attempts 1 and 2 and a success on attempt 3 it returns True having made
exactly 3 writes (2 retries); with a conflict on every attempt it returns
False instead of retrying further. -/
theorem set_resource_provider_traits_retry_spec (env : Nat → AttemptEnv)
    (g : Nat → Nat) :
    countWrites (set_resource_provider_traits env).2 ≤ MAX_RETRIES ∧
      writesFresh (set_resource_provider_traits env).2 = true ∧
      set_resource_provider_traits
          (fun i => ⟨200, g i, if i < 2 then 409 else 200⟩) =
        (true, [PlacementEv.readGen (g 0), PlacementEv.writeTraits (g 0) 409,
                PlacementEv.readGen (g 1), PlacementEv.writeTraits (g 1) 409,
                PlacementEv.readGen (g 2), PlacementEv.writeTraits (g 2) 200]) ∧
      countWrites (set_resource_provider_traits
          (fun i => ⟨200, g i, if i < 2 then 409 else 200⟩)).2 = MAX_RETRIES ∧
      (set_resource_provider_traits (fun i => ⟨200, g i, 409⟩)).1 = false := by
  have hb := setTraitsAttempts_bound env (List.range MAX_RETRIES)
  have hscen : set_resource_provider_traits
      (fun i => ⟨200, g i, if i < 2 then 409 else 200⟩) =
      (true, [PlacementEv.readGen (g 0), PlacementEv.writeTraits (g 0) 409,
              PlacementEv.readGen (g 1), PlacementEv.writeTraits (g 1) 409,
              PlacementEv.readGen (g 2), PlacementEv.writeTraits (g 2) 200]) := rfl
  refine ⟨?_, hb.2, hscen, ?_, rfl⟩
  · simpa [set_resource_provider_traits] using hb.1
  · rw [hscen]
    simp [countWrites, List.countP_cons, isWriteEv, MAX_RETRIES]

/-- C8: whenever MAAS_URL or MAAS_API_KEY is unset, or the API key does not
split into exactly three colon-separated parts, the configuration phase of
`fetch_maas_data` exits with a descriptive error message and never reaches
the inventory HTTP request. -/
theorem fetch_maas_data_config_rejects_bad_config
    (url key : Option (List Char))
    (h : url = none ∨ key = none ∨
      (∀ s, key = some s → (splitOnColon s).length ≠ 3)) :
    ∃ msg, fetch_maas_data_config url key = FetchOutcome.exitError msg := by
  rcases url with _ | u
  · exact ⟨MAAS_MISSING_ENV_MSG, rfl⟩
  rcases key with _ | s
  · refine ⟨MAAS_MISSING_ENV_MSG, ?_⟩
    unfold fetch_maas_data_config
    rw [if_pos]
    simp [listTruthy]
  have hsplit : (splitOnColon s).length ≠ 3 := by
    rcases h with h | h | h
    · exact absurd h (by simp)
    · exact absurd h (by simp)
    · exact h s rfl
  by_cases hs : (!listTruthy (some u) || !listTruthy (some s)) = true
  · refine ⟨MAAS_MISSING_ENV_MSG, ?_⟩
    unfold fetch_maas_data_config
    rw [if_pos hs]
  · refine ⟨MAAS_BAD_KEY_MSG, ?_⟩
    unfold fetch_maas_data_config
    rw [if_neg hs]
    simp only [Option.getD_some]
    rcases hsp : splitOnColon s with _ | ⟨a, _ | ⟨b, _ | ⟨c, _ | ⟨d, t⟩⟩⟩⟩ <;>
      first
        | rfl
        | exact absurd (by rw [hsp]; rfl) hsplit

/-- Witness for C8 at a concrete malformed API key. -/
theorem fetch_maas_data_config_rejects_witness :
    ∃ msg, fetch_maas_data_config (some (("http://maas.example.com:5240/MAAS").toList))
        (some (("not-a-valid-key").toList)) = FetchOutcome.exitError msg :=
  fetch_maas_data_config_rejects_bad_config _ _
    (Or.inr (Or.inr (fun s hs => by cases hs; decide)))

/-- The inline predicate of `filter_machines` agrees pointwise with the
predicate written from the spec text (section 4.2). -/
theorem should_include_eq_spec (zone : Option String) (d : Bool)
    (tags : List String) (m : Machine) :
    should_include_machine zone d tags m = spec_should_include zone d tags m := by
  unfold should_include_machine spec_should_include
  rcases zone with _ | z
  · cases d <;>
      cases hst : (m.status_name == some ("Deployed")) <;>
      cases hte : tags.isEmpty <;>
      cases hany : tags.any (fun t => (tagNames m.tag_names).contains t) <;>
      simp [strTruthy, hst, hte, hany]
  · cases hz : z.isEmpty <;>
      cases hzm : (m.zone == some z) <;>
      cases d <;>
      cases hst : (m.status_name == some ("Deployed")) <;>
      cases hte : tags.isEmpty <;>
      cases hany : tags.any (fun t => (tagNames m.tag_names).contains t) <;>
      simp [strTruthy, hz, hzm, hst, hte, hany]

/-- C6: `filter_machines` returns exactly the machines satisfying every
supplied predicate of its contract (zone equality when a zone is supplied,
Deployed status when the flag is set, tag-set intersection when tags are
given, tolerating both tag encodings), and filtering by a zone that no
machine has returns the empty list. -/
theorem filter_machines_spec (machines : List Machine) (zone : Option String)
    (deployed_only : Bool) (tags : List String) (z : String)
    (hz : z ≠ "") (habs : ∀ m ∈ machines, m.zone ≠ some z) :
    filter_machines machines zone deployed_only tags =
        machines.filter (spec_should_include zone deployed_only tags) ∧
      filter_machines machines (some z) deployed_only tags = [] := by
  constructor
  · unfold filter_machines
    rcases machines with _ | ⟨m, ms⟩
    · rfl
    · rw [if_neg (by simp)]
      exact List.filter_congr
        (fun x _ => should_include_eq_spec zone deployed_only tags x)
  · unfold filter_machines
    split
    · rfl
    · rw [List.filter_eq_nil_iff.mpr]
      intro a ha
      have hzone : a.zone ≠ some z := habs a ha
      unfold should_include_machine
      rw [if_pos]
      · exact Bool.false_ne_true
      · have h1 : strTruthy (some z) = true := by
          cases hzE : z.isEmpty
          · simp [strTruthy, hzE]
          · exact absurd ((String.isEmpty_iff z).mp hzE) hz
        have h2 : (a.zone == some z) = false := by
          simp [hzone]
        rw [h1, h2]
        rfl

/-- Witness for C6: filtering two sample machines by an absent zone gives
the empty list. -/
theorem filter_machines_spec_witness :
    filter_machines [sampleMachineA, sampleMachineB] (some ("zone-3"))
      false [] = [] :=
  (filter_machines_spec [sampleMachineA, sampleMachineB] none false []
    ("zone-3") (by decide) (by decide)).2

/-- A successful case-insensitive head match uppercases to the uppercased
pattern. -/
theorem ciHeadMatch_pyUpper : ∀ (ps l : List Char), ciHeadMatch ps l = true →
    pyUpper (l.take ps.length) = pyUpper ps := by
  intro ps
  induction ps with
  | nil => intro l _; rfl
  | cons p ps ih =>
      intro l h
      cases l with
      | nil => exact absurd h (by simp [ciHeadMatch])
      | cons c cs =>
          simp only [ciHeadMatch, Bool.and_eq_true, beq_iff_eq] at h
          simp only [List.length_cons, List.take_succ_cons, pyUpper,
            List.map_cons]
          rw [h.1]
          have h2 := ih cs h.2
          simp only [pyUpper] at h2
          rw [h2]

/-- Any text matched by the `(?i)(intel|amd)` search uppercases to `INTEL`
or `AMD`. -/
theorem searchIntelAmd_shape : ∀ (l m : List Char), searchIntelAmd l = some m →
    pyUpper m = ("INTEL").toList ∨ pyUpper m = ("AMD").toList := by
  intro l
  induction l with
  | nil => intro m h; exact absurd h (by simp [searchIntelAmd])
  | cons c cs ih =>
      intro m h
      unfold searchIntelAmd at h
      split at h
      · rename_i hm
        injection h with h2
        left
        have h5 := ciHeadMatch_pyUpper (("intel").toList) (c :: cs) hm
        rw [show ((("intel").toList).length) = 5 from rfl] at h5
        rw [← h2, h5]
        decide
      · split at h
        · rename_i hm
          injection h with h2
          right
          have h5 := ciHeadMatch_pyUpper (("amd").toList) (c :: cs) hm
          rw [show ((("amd").toList).length) = 3 from rfl] at h5
          rw [← h2, h5]
          decide
        · exact ih m h

/-- C9: `get_cpu_vendor` returns `UNKNOWN` exactly for the empty model
string; for a non-empty model without an intel/amd substring it returns
Python `None` (the trailing `return "UNKNOWN"` is unreachable), and for a
matching model it returns the matched vendor text uppercased, which is
`INTEL` or `AMD`. -/
theorem get_cpu_vendor_spec (l : List Char) :
    (get_cpu_vendor l = some (("UNKNOWN").toList) ↔ l = []) ∧
      (l ≠ [] → searchIntelAmd l = none → get_cpu_vendor l = none) ∧
      (∀ m, searchIntelAmd l = some m →
        get_cpu_vendor l = some (pyUpper m) ∧
          (pyUpper m = ("INTEL").toList ∨ pyUpper m = ("AMD").toList)) := by
  refine ⟨⟨?_, ?_⟩, ?_, ?_⟩
  · intro h
    by_contra hne
    unfold get_cpu_vendor at h
    rw [if_neg (by simpa using hne)] at h
    rcases hs : searchIntelAmd l with _ | m
    · rw [hs] at h
      exact Option.noConfusion h
    · rw [hs] at h
      simp only [Option.some.injEq] at h
      rcases searchIntelAmd_shape l m hs with hI | hA
      · rw [h] at hI
        exact absurd hI (by decide)
      · rw [h] at hA
        exact absurd hA (by decide)
  · intro h
    subst h
    rfl
  · intro hne hnone
    unfold get_cpu_vendor
    rw [if_neg (by simpa using hne), hnone]
  · intro m hm
    have hne : l ≠ [] := by
      intro h
      subst h
      simp [searchIntelAmd] at hm
    refine ⟨?_, searchIntelAmd_shape l m hm⟩
    unfold get_cpu_vendor
    rw [if_neg (by simpa using hne), hm]

/-- Witness for C9 at a concrete vendor-less model string. -/
theorem get_cpu_vendor_spec_witness :
    get_cpu_vendor (("Some Random Model").toList) = none :=
  (get_cpu_vendor_spec (("Some Random Model").toList)).2.1
    (by decide) (by decide)

/-- The regex-sub step agrees with the spec-worded ends-with-token test. -/
theorem stripTokenSuffix_eq_ite (tok l : List Char) :
    stripTokenSuffix tok l =
      if specEndsWithToken tok l = true then
        some (((l.reverse.drop tok.length).dropWhile isPySpace).reverse)
      else none := by
  unfold stripTokenSuffix specEndsWithToken
  dsimp only
  cases hp : tok.reverse.isPrefixOf l.reverse
  · simp [hp]
  · cases hd : l.reverse.drop tok.length with
    | nil => simp [hp, hd]
    | cons c rest =>
        cases hc : isPySpace c
        · simp [hp, hd, hc]
        · simp [hp, hd, hc]

/-- The source suffix removal equals the spec-worded strip of one trailing
CPU/PROCESSOR token. -/
theorem specStripToken_eq (l : List Char) :
    stripCpuSuffix l = specStripToken l := by
  unfold stripCpuSuffix specStripToken
  rw [stripTokenSuffix_eq_ite, stripTokenSuffix_eq_ite]
  have hc3 : ((("CPU").toList).length) = 3 := rfl
  have hp9 : ((("PROCESSOR").toList).length) = 9 := rfl
  cases h1 : specEndsWithToken (("CPU").toList) l
  · cases h2 : specEndsWithToken (("PROCESSOR").toList) l
    · simp [h1, h2]
    · simp [h1, h2, hp9]
  · simp [h1, hc3]

/-- Peeling one character relates the source underscore collapse to the
spec-worded scan. -/
theorem collapseAux_cons : ∀ (l : List Char) (a : Char),
    collapseUnderscores (a :: l) = a :: specCollapseAux (some a) l := by
  intro l
  induction l with
  | nil => intro a; rfl
  | cons b rest ih =>
      intro a
      by_cases hab : a = '_' ∧ b = '_'
      · obtain ⟨ha, hb⟩ := hab
        subst ha
        subst hb
        calc collapseUnderscores ('_' :: '_' :: rest)
            = collapseUnderscores ('_' :: rest) := by
              simp [collapseUnderscores]
          _ = '_' :: specCollapseAux (some '_') rest := ih ('_')
          _ = '_' :: specCollapseAux (some '_') ('_' :: rest) := by
              simp [specCollapseAux]
      · have hcond : (a == '_' && b == '_') = false := by
          cases ha : (a == '_') <;> cases hb : (b == '_') <;> simp_all
        have hcond2 : (b == '_' && (some a == some '_')) = false := by
          cases ha : (a == '_') <;> cases hb : (b == '_') <;> simp_all
        calc collapseUnderscores (a :: b :: rest)
            = a :: collapseUnderscores (b :: rest) := by
              simp [collapseUnderscores, hcond]
          _ = a :: b :: specCollapseAux (some b) rest := by rw [ih b]
          _ = a :: specCollapseAux (some a) (b :: rest) := by
              simp [specCollapseAux, hcond2]
              rw [if_neg (fun hcon => hab ⟨hcon.2, hcon.1⟩)]

/-- The source underscore collapse equals the spec-worded scan. -/
theorem specCollapse_eq (l : List Char) :
    specCollapse l = collapseUnderscores l := by
  cases l with
  | nil => rfl
  | cons a rest =>
      rw [collapseAux_cons rest a]
      simp [specCollapse, specCollapseAux]

/-- C4: for every model string, `generate_trait_name` equals the pipeline
composed of the individually specified steps (uppercase, strip one
trailing CPU/PROCESSOR token, replace characters outside A-Z0-9, collapse
underscore runs, trim outer underscores, add the vendor prefix), and the
empty input maps to the literal `CUSTOM_UNKNOWN_EMPTY`. -/
theorem generate_trait_name_eq_spec_pipeline (l : List Char) :
    generate_trait_name l = spec_derive l ∧
      generate_trait_name [] = ("CUSTOM_UNKNOWN_EMPTY").toList := by
  refine ⟨?_, rfl⟩
  unfold generate_trait_name spec_derive
  rcases l with _ | ⟨c, cs⟩
  · rfl
  · rw [if_neg (List.cons_ne_nil c cs), if_neg (List.cons_ne_nil c cs)]
    dsimp only
    rw [← specStripToken_eq, specCollapse_eq]
    generalize stripUnderscores (collapseUnderscores (replaceSpecial
      (stripCpuSuffix ((c :: cs).map asciiUpperChar)))) = C
    cases hI : hasSubstring (("INTEL").toList) C
    · cases hA : hasSubstring (("AMD").toList) C
      · rw [if_neg (by simp [hI]), if_neg (by simp [hA]),
          if_neg (by simp [hI, hA])]
      · rw [if_neg (by simp [hI]), if_pos (by simp [hA]),
          if_pos (by simp [hI, hA])]
    · rw [if_pos (by simp [hI]), if_pos (by simp [hI])]

/-- The underscore-replacement step only produces trait characters. -/
theorem isTraitChar_replace (c : Char) :
    isTraitChar (if isUpperAlnum c then c else '_') = true := by
  cases h : isUpperAlnum c
  · simp [h]
    decide
  · simp [h, isTraitChar]

/-- ASCII uppercasing fixes every trait character (A-Z, 0-9, underscore). -/
theorem asciiUpperChar_fixed (c : Char) (h : isTraitChar c = true) :
    asciiUpperChar c = c := by
  simp only [isTraitChar, isUpperAlnum, Bool.or_eq_true, decide_eq_true_eq] at h
  rcases h with (h | h) | h
  · unfold asciiUpperChar
    rw [if_neg (by omega)]
  · unfold asciiUpperChar
    rw [if_neg (by omega)]
  · subst h
    decide

/-- No trait character is whitespace. -/
theorem isPySpace_trait (c : Char) (h : isTraitChar c = true) :
    isPySpace c = false := by
  simp only [isTraitChar, isUpperAlnum, Bool.or_eq_true, decide_eq_true_eq] at h
  rcases h with (h | h) | h
  · simp only [isPySpace, decide_eq_false_iff_not]
    omega
  · simp only [isPySpace, decide_eq_false_iff_not]
    omega
  · subst h
    decide

/-- The underscore-replacement step fixes every trait character. -/
theorem replace_fixed (c : Char) (h : isTraitChar c = true) :
    (if isUpperAlnum c then c else '_') = c := by
  cases hu : isUpperAlnum c
  · have hx : c = '_' := by
      simp [isTraitChar, hu] at h
      exact h
    subst hx
    decide
  · rfl

/-- Mapping a function that fixes every element of a list is the identity. -/
theorem map_id_of_fixed (f : Char → Char) :
    ∀ l : List Char, (∀ c ∈ l, f c = c) → l.map f = l := by
  intro l h
  induction l with
  | nil => rfl
  | cons a t ih =>
      simp only [List.map_cons]
      rw [h a (by simp), ih (fun c hc => h c (by simp [hc]))]

/-- The suffix pattern cannot match a string without whitespace. -/
theorem stripTokenSuffix_none (tok l : List Char)
    (h : ∀ c ∈ l, isPySpace c = false) : stripTokenSuffix tok l = none := by
  unfold stripTokenSuffix
  dsimp only
  cases hp : tok.reverse.isPrefixOf l.reverse
  · simp [hp]
  · cases hd : l.reverse.drop tok.length with
    | nil => simp [hp, hd]
    | cons c rest =>
        have hc : c ∈ l := by
          have hmem : c ∈ l.reverse.drop tok.length := by
            rw [hd]
            simp
          exact List.mem_reverse.mp ((List.drop_sublist _ _).mem hmem)
        simp [hp, hd, h c hc]

/-- The CPU/PROCESSOR suffix removal fixes strings without whitespace. -/
theorem stripCpuSuffix_no_space (l : List Char)
    (h : ∀ c ∈ l, isPySpace c = false) : stripCpuSuffix l = l := by
  unfold stripCpuSuffix
  rw [stripTokenSuffix_none _ _ h, stripTokenSuffix_none _ _ h]

/-- A tail of an adjacent-underscore-free list is adjacent-underscore
free. -/
theorem noDouble_tail (a : Char) (l : List Char)
    (h : noDouble (a :: l) = true) : noDouble l = true := by
  cases l with
  | nil => rfl
  | cons b r =>
      simp only [noDouble, Bool.and_eq_true] at h
      exact h.2

/-- Prepending a character preserves adjacent-underscore freedom when it
does not form an underscore pair with the head. -/
theorem noDouble_cons (a : Char) (l : List Char) (hl : noDouble l = true)
    (h : ∀ b, l.head? = some b → (a == '_' && b == '_') = false) :
    noDouble (a :: l) = true := by
  cases l with
  | nil => rfl
  | cons b r =>
      simp only [noDouble, Bool.and_eq_true, Bool.not_eq_true']
      exact ⟨h b rfl, hl⟩

/-- The underscore collapse fixes adjacent-underscore-free lists. -/
theorem collapseUnderscores_of_noDouble :
    ∀ l : List Char, noDouble l = true → collapseUnderscores l = l := by
  intro l
  induction l with
  | nil => intro _; rfl
  | cons a t ih =>
      intro h
      cases t with
      | nil => rfl
      | cons b rest =>
          simp only [noDouble, Bool.and_eq_true, Bool.not_eq_true'] at h
          simp only [collapseUnderscores]
          rw [if_neg (by simp [h.1]), ih h.2]

/-- `dropWhile` preserves adjacent-underscore freedom. -/
theorem noDouble_dropWhile (p : Char → Bool) :
    ∀ l : List Char, noDouble l = true → noDouble (l.dropWhile p) = true := by
  intro l
  induction l with
  | nil => intro _; rfl
  | cons a t ih =>
      intro h
      rw [List.dropWhile_cons]
      by_cases hp : p a = true
      · rw [if_pos hp]
        exact ih (noDouble_tail a t h)
      · rw [if_neg hp]
        exact h

/-- Appending one character preserves adjacent-underscore freedom when it
does not form an underscore pair with the last element. -/
theorem noDouble_append_singleton (a : Char) :
    ∀ l : List Char, noDouble l = true →
      (∀ b, l.getLast? = some b → (b == '_' && a == '_') = false) →
      noDouble (l ++ [a]) = true := by
  intro l
  induction l with
  | nil => intro _ _; rfl
  | cons x t ih =>
      intro h hlast
      cases t with
      | nil =>
          simp only [List.cons_append, List.nil_append, noDouble,
            Bool.and_eq_true, Bool.not_eq_true']
          exact ⟨hlast x rfl, trivial⟩
      | cons y r =>
          simp only [noDouble, Bool.and_eq_true, Bool.not_eq_true'] at h
          have hrec := ih h.2 (fun b hb => hlast b (by
            rw [List.getLast?_cons_cons]
            exact hb))
          simp only [List.cons_append, noDouble, Bool.and_eq_true,
            Bool.not_eq_true']
          constructor
          · exact h.1
          · simpa [List.cons_append] using hrec

/-- Reversal preserves adjacent-underscore freedom. -/
theorem noDouble_reverse :
    ∀ l : List Char, noDouble l = true → noDouble l.reverse = true := by
  intro l
  induction l with
  | nil => intro _; rfl
  | cons x t ih =>
      intro h
      rw [List.reverse_cons]
      refine noDouble_append_singleton x t.reverse
        (ih (noDouble_tail x t h)) ?_
      intro b hb
      rw [List.getLast?_reverse] at hb
      cases t with
      | nil => exact absurd hb (by simp)
      | cons y r =>
          simp only [List.head?_cons, Option.some.injEq] at hb
          simp only [noDouble, Bool.and_eq_true, Bool.not_eq_true'] at h
          rw [← hb, Bool.and_comm]
          exact h.1

/-- The head surviving a `dropWhile` fails the predicate. -/
theorem dropWhile_head_false (p : Char → Bool) :
    ∀ (l : List Char) (a : Char), (l.dropWhile p).head? = some a →
      p a = false := by
  intro l
  induction l with
  | nil => intro a h; exact absurd h (by simp)
  | cons x t ih =>
      intro a h
      rw [List.dropWhile_cons] at h
      by_cases hx : p x = true
      · rw [if_pos hx] at h
        exact ih a h
      · rw [if_neg hx] at h
        simp only [List.head?_cons, Option.some.injEq] at h
        rw [← h]
        cases hpx : p x
        · rfl
        · exact absurd hpx hx

/-- A non-empty `dropWhile` keeps the last element of the list. -/
theorem getLast?_dropWhile_of_ne_nil (p : Char → Bool) (l : List Char)
    (h : l.dropWhile p ≠ []) :
    (l.dropWhile p).getLast? = l.getLast? := by
  obtain ⟨x, hx⟩ : ∃ x, (l.dropWhile p).getLast? = some x := by
    cases hgl : (l.dropWhile p).getLast? with
    | none => exact absurd (List.getLast?_eq_none_iff.mp hgl) h
    | some x => exact ⟨x, rfl⟩
  rw [hx]
  conv_rhs => rw [← List.takeWhile_append_dropWhile p l]
  rw [List.getLast?_append, hx]
  rfl

/-- The trimmed string never starts with an underscore. -/
theorem stripUnderscores_head (l : List Char) :
    (stripUnderscores l).head? ≠ some '_' := by
  unfold stripUnderscores
  intro h
  rw [List.head?_reverse] at h
  have hne : (l.dropWhile (fun c => c == '_')).reverse.dropWhile
      (fun c => c == '_') ≠ [] := by
    intro he
    rw [he] at h
    exact Option.noConfusion h
  rw [getLast?_dropWhile_of_ne_nil _ _ hne, List.getLast?_reverse] at h
  have := dropWhile_head_false (fun c => c == '_') l '_' h
  simp at this

/-- The trimmed string never ends with an underscore. -/
theorem stripUnderscores_getLast (l : List Char) :
    (stripUnderscores l).getLast? ≠ some '_' := by
  unfold stripUnderscores
  intro h
  rw [List.getLast?_reverse] at h
  have := dropWhile_head_false (fun c => c == '_') _ '_' h
  simp at this

/-- Trimming keeps only characters of the input. -/
theorem stripUnderscores_mem (l : List Char) (c : Char)
    (h : c ∈ stripUnderscores l) : c ∈ l := by
  unfold stripUnderscores at h
  rw [List.mem_reverse] at h
  have h2 := (List.dropWhile_sublist _).mem h
  rw [List.mem_reverse] at h2
  exact (List.dropWhile_sublist _).mem h2

/-- Trimming preserves adjacent-underscore freedom. -/
theorem stripUnderscores_noDouble (l : List Char)
    (h : noDouble l = true) : noDouble (stripUnderscores l) = true := by
  unfold stripUnderscores
  exact noDouble_reverse _ (noDouble_dropWhile _ _
    (noDouble_reverse _ (noDouble_dropWhile _ _ h)))

/-- The underscore collapse keeps the head of its input. -/
theorem collapse_head :
    ∀ (rest : List Char) (b : Char),
      (collapseUnderscores (b :: rest)).head? = some b := by
  intro rest
  induction rest with
  | nil => intro b; rfl
  | cons c r ih =>
      intro b
      by_cases hbc : (b == '_' && c == '_') = true
      · have hb : b = '_' := by
          cases h1 : (b == '_') <;> simp_all
        have hc : c = '_' := by
          cases h1 : (c == '_') <;> simp_all
        simp only [collapseUnderscores]
        rw [if_pos hbc, ih c, hb, hc]
      · simp only [collapseUnderscores]
        rw [if_neg hbc]
        rfl

/-- The underscore collapse output is adjacent-underscore free. -/
theorem collapse_noDouble :
    ∀ l : List Char, noDouble (collapseUnderscores l) = true := by
  intro l
  induction l with
  | nil => rfl
  | cons a t ih =>
      cases t with
      | nil => rfl
      | cons b rest =>
          by_cases hab : (a == '_' && b == '_') = true
          · simp only [collapseUnderscores]
            rw [if_pos hab]
            exact ih
          · simp only [collapseUnderscores]
            rw [if_neg hab]
            refine noDouble_cons a _ ih ?_
            intro x hx
            rw [collapse_head rest b] at hx
            cases hx
            cases h1 : (a == '_') <;> cases h2 : (b == '_') <;> simp_all

/-- The underscore collapse keeps only characters of the input. -/
theorem collapse_mem :
    ∀ (l : List Char) (x : Char), x ∈ collapseUnderscores l → x ∈ l := by
  intro l
  induction l with
  | nil => intro x hx; exact absurd hx (by simp [collapseUnderscores])
  | cons a t ih =>
      intro x hx
      cases t with
      | nil => exact hx
      | cons b rest =>
          simp only [collapseUnderscores] at hx
          by_cases hab : (a == '_' && b == '_') = true
          · rw [if_pos hab] at hx
            exact List.mem_cons_of_mem a (ih x hx)
          · rw [if_neg hab] at hx
            rcases List.mem_cons.mp hx with hx | hx
            · exact hx ▸ List.mem_cons_self a (b :: rest)
            · exact List.mem_cons_of_mem a (ih x hx)

/-- Prepending an underscore to a list that does not start with one
preserves adjacent-underscore freedom. -/
theorem noDouble_underscore_cons (l : List Char) (h1 : l.head? ≠ some '_')
    (h2 : noDouble l = true) : noDouble ('_' :: l) = true := by
  refine noDouble_cons '_' l h2 ?_
  intro b hb
  have hbne : b ≠ '_' := fun he => h1 (by rw [hb, he])
  cases hbb : (b == '_')
  · rfl
  · exact absurd (by simpa using hbb) hbne

/-- The `CUSTOM_` prefix keeps a clean remainder adjacent-underscore
free. -/
theorem noDouble_custom_append (l : List Char) (h1 : l.head? ≠ some '_')
    (h2 : noDouble l = true) :
    noDouble (("CUSTOM_").toList ++ l) = true := by
  have h3 := noDouble_underscore_cons l h1 h2
  show noDouble ('C' :: 'U' :: 'S' :: 'T' :: 'O' :: 'M' :: '_' :: l) = true
  refine noDouble_cons _ _ ?_ (fun b hb => rfl)
  refine noDouble_cons _ _ ?_ (fun b hb => rfl)
  refine noDouble_cons _ _ ?_ (fun b hb => rfl)
  refine noDouble_cons _ _ ?_ (fun b hb => rfl)
  refine noDouble_cons _ _ ?_ (fun b hb => rfl)
  refine noDouble_cons _ _ ?_ (fun b hb => rfl)
  exact h3

/-- The `CUSTOM_UNKNOWN_` prefix keeps a clean remainder
adjacent-underscore free. -/
theorem noDouble_custom_unknown_append (l : List Char)
    (h1 : l.head? ≠ some '_') (h2 : noDouble l = true) :
    noDouble (("CUSTOM_UNKNOWN_").toList ++ l) = true := by
  have h3 := noDouble_underscore_cons l h1 h2
  show noDouble ('C' :: 'U' :: 'S' :: 'T' :: 'O' :: 'M' :: '_' :: 'U' ::
    'N' :: 'K' :: 'N' :: 'O' :: 'W' :: 'N' :: '_' :: l) = true
  refine noDouble_cons _ _ ?_ (fun b hb => rfl)
  refine noDouble_cons _ _ ?_ (fun b hb => rfl)
  refine noDouble_cons _ _ ?_ (fun b hb => rfl)
  refine noDouble_cons _ _ ?_ (fun b hb => rfl)
  refine noDouble_cons _ _ ?_ (fun b hb => rfl)
  refine noDouble_cons _ _ ?_ (fun b hb => rfl)
  refine noDouble_cons _ _ ?_ (fun b hb => by
    simp only [List.head?_cons, Option.some.injEq] at hb
    cases hb
    rfl)
  refine noDouble_cons _ _ ?_ (fun b hb => rfl)
  refine noDouble_cons _ _ ?_ (fun b hb => rfl)
  refine noDouble_cons _ _ ?_ (fun b hb => rfl)
  refine noDouble_cons _ _ ?_ (fun b hb => rfl)
  refine noDouble_cons _ _ ?_ (fun b hb => rfl)
  refine noDouble_cons _ _ ?_ (fun b hb => rfl)
  refine noDouble_cons _ _ ?_ (fun b hb => rfl)
  exact h3

/-- The structure of every `generate_trait_name` output: one of the two
vendor prefixes followed by a cleaned remainder made of trait characters,
adjacent-underscore free, with no outer underscore; an empty remainder
forces the bare `CUSTOM_UNKNOWN_` output. -/
theorem generate_trait_name_shape (l : List Char) :
    ∃ cleaned : List Char,
      (generate_trait_name l = ("CUSTOM_").toList ++ cleaned ∨
        generate_trait_name l = ("CUSTOM_UNKNOWN_").toList ++ cleaned) ∧
      cleaned.all isTraitChar = true ∧ noDouble cleaned = true ∧
      cleaned.head? ≠ some '_' ∧ cleaned.getLast? ≠ some '_' ∧
      (cleaned = [] →
        generate_trait_name l = ("CUSTOM_UNKNOWN_").toList) := by
  rcases l with _ | ⟨c, cs⟩
  · exact ⟨("EMPTY").toList, Or.inr (by decide), by decide, by decide,
      by decide, by decide, fun h => absurd h (by decide)⟩
  · refine ⟨stripUnderscores (collapseUnderscores (replaceSpecial
      (stripCpuSuffix ((c :: cs).map asciiUpperChar)))), ?_, ?_, ?_, ?_, ?_, ?_⟩
    · unfold generate_trait_name
      rw [if_neg (List.cons_ne_nil c cs)]
      dsimp only
      split
      · exact Or.inl rfl
      · split
        · exact Or.inl rfl
        · exact Or.inr rfl
    · rw [List.all_eq_true]
      intro x hx
      have h1 := stripUnderscores_mem _ _ hx
      have h2 := collapse_mem _ _ h1
      simp only [replaceSpecial, List.mem_map] at h2
      obtain ⟨y, _, hy⟩ := h2
      rw [← hy]
      exact isTraitChar_replace y
    · exact stripUnderscores_noDouble _ (collapse_noDouble _)
    · exact stripUnderscores_head _
    · exact stripUnderscores_getLast _
    · intro h0
      unfold generate_trait_name
      rw [if_neg (List.cons_ne_nil c cs)]
      dsimp only
      rw [h0]
      decide

/-- Every `generate_trait_name` output is non-empty, made of trait
characters, and adjacent-underscore free. -/
theorem generate_trait_name_wf (l : List Char) :
    generate_trait_name l ≠ [] ∧
      (generate_trait_name l).all isTraitChar = true ∧
      noDouble (generate_trait_name l) = true := by
  obtain ⟨C, hform, hall, hnd, hhead, _, _⟩ := generate_trait_name_shape l
  refine ⟨?_, ?_, ?_⟩
  · rcases hform with h | h <;> rw [h] <;> simp
  · rcases hform with h | h <;> rw [h, List.all_append, hall] <;> decide
  · rcases hform with h | h
    · rw [h]
      exact noDouble_custom_append C hhead hnd
    · rw [h]
      exact noDouble_custom_unknown_append C hhead hnd

/-- On a non-empty string of trait characters without doubled
underscores, the first four derivation stages are the identity, so the
function only re-trims and re-prefixes. -/
theorem generate_trait_name_fixed (t : List Char) (hne : t ≠ [])
    (hall : t.all isTraitChar = true) (hnd : noDouble t = true) :
    generate_trait_name t =
      (if hasSubstring (("INTEL").toList) (stripUnderscores t) then
        ("CUSTOM_").toList ++ stripUnderscores t
       else if hasSubstring (("AMD").toList) (stripUnderscores t) then
        ("CUSTOM_").toList ++ stripUnderscores t
       else ("CUSTOM_UNKNOWN_").toList ++ stripUnderscores t) := by
  have hchars := List.all_eq_true.mp hall
  have hupper : t.map asciiUpperChar = t :=
    map_id_of_fixed _ t (fun x hx => asciiUpperChar_fixed x (hchars x hx))
  have hstrip : stripCpuSuffix t = t :=
    stripCpuSuffix_no_space t (fun x hx => isPySpace_trait x (hchars x hx))
  have hrepl : replaceSpecial t = t :=
    map_id_of_fixed _ t (fun x hx => replace_fixed x (hchars x hx))
  have hcoll : collapseUnderscores t = t :=
    collapseUnderscores_of_noDouble t hnd
  unfold generate_trait_name
  rw [if_neg hne]
  dsimp only
  rw [hupper, hstrip, hrepl, hcoll]

/-- C2 counterexample: an input whose cleaned form is empty produces the
bare `CUSTOM_UNKNOWN_`, which ends in an underscore, refuting the
no-trailing-underscore part of the claim. -/
theorem generate_trait_name_trailing_underscore_cex :
    generate_trait_name ['-'] = ("CUSTOM_UNKNOWN_").toList ∧
      (generate_trait_name ['-']).getLast? = some '_' :=
  ⟨by decide, by decide⟩

/-- C2 amended: every output consists of `[A-Z0-9_]` characters only,
starts with `CUSTOM_` (hence no leading underscore), has no doubled
underscore, and has no trailing underscore except that inputs whose
cleaned form is empty produce exactly `CUSTOM_UNKNOWN_`. -/
theorem generate_trait_name_output_shape (l : List Char) :
    (generate_trait_name l).all isTraitChar = true ∧
      (generate_trait_name l).head? = some 'C' ∧
      (("CUSTOM_").toList).isPrefixOf (generate_trait_name l) = true ∧
      noDouble (generate_trait_name l) = true ∧
      ((generate_trait_name l).getLast? ≠ some '_' ∨
        generate_trait_name l = ("CUSTOM_UNKNOWN_").toList) := by
  obtain ⟨C, hform, hall, hnd, hhead, hlast, hempty⟩ :=
    generate_trait_name_shape l
  refine ⟨?_, ?_, ?_, ?_, ?_⟩
  · rcases hform with h | h <;> rw [h, List.all_append, hall] <;> decide
  · rcases hform with h | h <;> rw [h] <;> rfl
  · rcases hform with h | h <;> rw [h, List.isPrefixOf_iff_prefix]
    · exact List.prefix_append _ _
    · rw [show ("CUSTOM_UNKNOWN_").toList =
        ("CUSTOM_").toList ++ ("UNKNOWN_").toList from rfl, List.append_assoc]
      exact List.prefix_append _ _
  · rcases hform with h | h
    · rw [h]
      exact noDouble_custom_append C hhead hnd
    · rw [h]
      exact noDouble_custom_unknown_append C hhead hnd
  · by_cases hC0 : C = []
    · exact Or.inr (hempty hC0)
    · refine Or.inl ?_
      obtain ⟨x, hx⟩ : ∃ x, C.getLast? = some x := by
        cases hgl : C.getLast? with
        | none => exact absurd (List.getLast?_eq_none_iff.mp hgl) hC0
        | some x => exact ⟨x, rfl⟩
      have hxne : some x ≠ some '_' := by
        rw [← hx]
        exact hlast
      rcases hform with h | h <;> rw [h, List.getLast?_append, hx] <;>
        exact hxne

/-- Witness for the amended C2 at a concrete input. -/
theorem generate_trait_name_output_shape_witness :
    (generate_trait_name (("Intel i7").toList)).all isTraitChar = true :=
  (generate_trait_name_output_shape (("Intel i7").toList)).1

/-- C5 counterexample: re-deriving from an already-derived name is not a
no-op; the empty input already refutes idempotence. -/
theorem generate_trait_name_not_idempotent_cex :
    generate_trait_name (generate_trait_name []) ≠ generate_trait_name [] := by
  decide

/-- C5 amended: applying `generate_trait_name` to one of its outputs is
never the identity; it re-trims the output (removing at most the single
trailing underscore of a bare `CUSTOM_UNKNOWN_`) and prepends one more
vendor prefix. -/
theorem generate_trait_name_reapply (l : List Char) :
    generate_trait_name (generate_trait_name l) =
      (if hasSubstring (("INTEL").toList)
            (stripUnderscores (generate_trait_name l)) ||
          hasSubstring (("AMD").toList)
            (stripUnderscores (generate_trait_name l)) then
        ("CUSTOM_").toList ++ stripUnderscores (generate_trait_name l)
       else
        ("CUSTOM_UNKNOWN_").toList ++
          stripUnderscores (generate_trait_name l)) := by
  obtain ⟨hne, hall, hnd⟩ := generate_trait_name_wf l
  rw [generate_trait_name_fixed _ hne hall hnd]
  generalize stripUnderscores (generate_trait_name l) = C
  cases hI : hasSubstring (("INTEL").toList) C
  · cases hA : hasSubstring (("AMD").toList) C
    · rw [if_neg (by simp [hI]), if_neg (by simp [hA]),
        if_neg (by simp [hI, hA])]
    · rw [if_neg (by simp [hI]), if_pos (by simp [hA]),
        if_pos (by simp [hI, hA])]
  · rw [if_pos (by simp [hI]), if_pos (by simp [hI])]

end MaasCpuAnalyzer
